import Mathlib

/-!
Verification of the PokeBowl-Inventory streaming core against its design
specification.  The Python backend modules the spec describes
(`inventory.py`, `camera.py`, `server.py`) are documented but not shipped
in this repository, so those components are modelled directly from the
spec's words; the `ObjectDetection` demo component and the `Warehouse3D`
`Shelf` component are embedded from the TypeScript source that is present.
-/

namespace PokeBowl

/-- Modelled from the spec: a fixed-capacity FIFO ring buffer append
(HistoryWindow insertion, §3 data model; also the per-connection bounded
queue of the Stream Broadcast Server).  Appending to a buffer already at
capacity evicts the oldest element (the head). -/
def fifoAppend (cap : Nat) (q : List α) (x : α) : List α :=
  let w := q ++ [x]
  if cap < w.length then w.tail else w

/-- Modelled from the spec: a single detection
`(class_name, confidence in [0,1], bbox: 4 coordinates)`, immutable once
produced (§3 data model; `inventory.py` is documented but absent from the
repository). -/
structure Detection where
  class_name : String
  confidence : ℚ
  bbox : ℚ × ℚ × ℚ × ℚ

/-- Modelled from the spec: the three configurable smoothing methods of
`get_inventory()` (§4.3). -/
inductive SmoothMethod where
  | median
  | mean
  | mode
deriving DecidableEq

/-- Modelled from the spec: the raw integer count of detections of one
class in one frame's DetectionSet (`update`: group detections by
class_name and compute one raw integer count per class). -/
def rawCount (ds : List Detection) (c : String) : Nat :=
  (ds.filter (fun d => d.class_name == c)).length

/-- Modelled from the spec: the distinct class names appearing in a
DetectionSet, in order of first appearance. -/
def detectedClasses (ds : List Detection) : List String :=
  (ds.map (fun d => d.class_name)).dedup

/-- Modelled from the spec: median smoothing — sort the window; for odd
length take the middle value; for even length take the arithmetic mean of
the two central values, rounded to the nearest integer, ties round half
up (§4.3).  Over naturals, round-half-up of `(a+b)/2` is `(a+b+1)/2`. -/
def medianOf (w : List Nat) : Nat :=
  if w.length % 2 = 1 then (w.insertionSort (· ≤ ·)).getD (w.length / 2) 0
  else if w.length = 0 then 0
  else ((w.insertionSort (· ≤ ·)).getD (w.length / 2 - 1) 0 +
        (w.insertionSort (· ≤ ·)).getD (w.length / 2) 0 + 1) / 2

/-- Modelled from the spec: rounding a rational to the nearest integer
with ties rounding half up (§4.3). -/
def roundHalfUp (x : ℚ) : ℤ :=
  ⌊x + 1 / 2⌋

/-- Modelled from the spec: mean smoothing — arithmetic mean of the
window, rounded to nearest integer, ties round half up (§4.3). -/
def meanOf (w : List Nat) : Nat :=
  if w.length = 0 then 0 else (2 * w.sum + w.length) / (2 * w.length)

/-- Modelled from the spec: the largest multiplicity attained by any
value of the window. -/
def maxCount (w : List Nat) : Nat :=
  ((w.map (fun v => w.count v)).maximum).unbot' 0

/-- Modelled from the spec: mode smoothing — the most frequent value in
the window, ties broken by preferring the smaller value (§4.3). -/
def modeOf (w : List Nat) : Nat :=
  ((w.filter (fun v => w.count v == maxCount w)).minimum).untop' 0

/-- Modelled from the spec: dispatch on the configured smoothing
method (§4.3). -/
def smoothValue (m : SmoothMethod) (w : List Nat) : Nat :=
  match m with
  | .median => medianOf w
  | .mean => meanOf w
  | .mode => modeOf w

/-- Modelled from the spec: the Inventory Tracker state — the window
capacity W (default 10), the configured smoothing method (default
median), and the per-class HistoryWindow ring buffers (§3, §4.3). -/
structure InventoryTracker where
  window : Nat := 10
  method : SmoothMethod := .median
  history : List (String × List Nat) := []

/-- Modelled from the spec: `update(DetectionSet)` — group detections by
class_name, append the raw count of each already-tracked class onto its
HistoryWindow (an explicit 0 when the class is absent from the current
DetectionSet, so stale counts decay), and start a window for each newly
seen class (§4.3). -/
def update (t : InventoryTracker) (ds : List Detection) : InventoryTracker :=
  let olds := t.history.map (fun p => (p.1, fifoAppend t.window p.2 (rawCount ds p.1)))
  let fresh := (detectedClasses ds).filter
    (fun c => !((t.history.map Prod.fst).contains c))
  let news := fresh.map (fun c => (c, fifoAppend t.window [] (rawCount ds c)))
  { t with history := olds ++ news }

/-- Modelled from the spec: `get_inventory() -> InventorySnapshot` — for
each tracked class the smoothed value of its window under the configured
method; only classes whose current smoothed value is greater than zero
appear in the output snapshot (§4.3). -/
def get_inventory (t : InventoryTracker) : List (String × Nat) :=
  (t.history.map (fun p => (p.1, smoothValue t.method p.2))).filter
    (fun p => 0 < p.2)

/-- Modelled from the spec: the stateful call view of `get_inventory()`.
The spec declares the function pure over window contents, so the call
returns the snapshot together with the (unchanged) tracker state. -/
def get_inventory_call (t : InventoryTracker) :
    List (String × Nat) × InventoryTracker :=
  (get_inventory t, t)

/-- Modelled from the spec: the outcome of one underlying camera capture
attempt — either a fresh frame (identified by its sequence number) or a
read failure (§4.1; `camera.py` is documented but absent from the
repository). -/
inductive ReadOutcome where
  | good : Nat → ReadOutcome
  | bad

/-- Modelled from the spec: the Frame Source state — the last
successfully captured frame, the count of consecutive failed reads in the
current outage, the chronological list of backoff delays of the
reconnect attempts made so far, and whether CameraUnavailable is being
signaled (§4.1). -/
structure CamState where
  last : Option Nat
  consecFails : Nat
  attempts : List Nat
  unavailable : Bool

/-- Modelled from the spec: the exponential backoff delay of the i-th
reconnect attempt of an outage — a short fixed base delay doubling each
attempt, up to a cap (§4.1). -/
def reconnectDelay (base cap i : Nat) : Nat :=
  min (base * 2 ^ i) cap

/-- Modelled from the spec: one `read()` call with recovery (§4.1).  A
successful capture returns the fresh frame (not stale) and ends any
outage.  On a read failure with fewer than 5 reconnect attempts spent, a
backoff-spaced `reconnect()` attempt is recorded and the last
successfully captured frame is returned marked stale; after 5 failed
attempts CameraUnavailable is signaled, the Orchestrator stays in
DEGRADED, and the last known frame is still served — the failure is
never fatal to the process. -/
def camStep (base cap : Nat) (s : CamState) (o : ReadOutcome) :
    CamState × (Option Nat × Bool) :=
  match o with
  | .good f =>
      ({ s with last := some f, consecFails := 0, unavailable := false },
       (some f, false))
  | .bad =>
      if s.consecFails < 5 then
        ({ s with consecFails := s.consecFails + 1,
                  attempts := s.attempts ++ [reconnectDelay base cap s.consecFails] },
         (s.last, true))
      else
        ({ s with unavailable := true }, (s.last, true))

/-- Modelled from the spec: running the Frame Source over a sequence of
capture outcomes, collecting the frames served to the caller. -/
def camRun (base cap : Nat) (s : CamState) :
    List ReadOutcome → CamState × List (Option Nat × Bool)
  | [] => (s, [])
  | o :: os =>
      let step := camStep base cap s o
      let rest := camRun base cap step.1 os
      (rest.1, step.2 :: rest.2)

/-- Modelled from the spec: the WebSocket message envelope
`type / data / timestamp` (§4.5, §6). -/
inductive MsgType where
  | frame
  | inventory
  | stats
deriving DecidableEq

/-- Modelled from the spec: one outbound message. -/
structure Msg where
  type : MsgType
  data : String
  timestamp : Nat
deriving DecidableEq

/-- Modelled from the spec: enqueue into one ClientConnection's bounded
outbound queue of capacity 2 — when the queue is full the oldest queued
message is dropped to make room (§4.5). -/
def enqueueMsg (q : List Msg) (m : Msg) : List Msg :=
  fifoAppend 2 q m

/-- Modelled from the spec: the Stream Broadcast Server state — each
connected viewer (by connection id) with its own bounded outbound
queue, independent of all other connections (§3, §4.5). -/
def ServerState := List (Nat × List Msg)

/-- Modelled from the spec: one publish operation — the message is
enqueued independently into every connection's own queue; no queue state
can block the operation (§4.5). -/
def publish (srv : ServerState) (m : Msg) : ServerState :=
  srv.map (fun p => (p.1, enqueueMsg p.2 m))

/-- Modelled from the spec: one connection's consumer takes the next
message off its own queue; all other connections are untouched (§4.5). -/
def consume (srv : ServerState) (i : Nat) : ServerState :=
  srv.map (fun p => (p.1, if p.1 = i then p.2.tail else p.2))

/-- Modelled from the spec: the outcome of one `detect()` call at the
Detection Adapter boundary — a DetectionSet, a transient InferenceError,
or an unrecoverable resource exhaustion (§4.2, §7). -/
inductive DetectOutcome where
  | ok : List Detection → DetectOutcome
  | inferenceError
  | resourceExhaustion

/-- Modelled from the spec: the fatal error kinds that terminate the
process (§7). -/
inductive FatalError where
  | resourceExhaustion
deriving DecidableEq

/-- Modelled from the spec: one Orchestrator cycle's detection-and-update
stage — a transient InferenceError is caught and treated as an empty
DetectionSet so the cycle continues; only resource exhaustion is fatal
(§4.2, §4.4, §7). -/
def orchestratorCycle (t : InventoryTracker) (o : DetectOutcome) :
    Except FatalError InventoryTracker :=
  match o with
  | .ok ds => .ok (update t ds)
  | .inferenceError => .ok (update t [])
  | .resourceExhaustion => .error .resourceExhaustion

/-- Embedded from `src/src/components/SectionHeading.tsx`
(`ObjectDetection`): one prediction of the coco-ssd model —
`bbox / class / score`. -/
structure DemoDetection where
  bbox : ℚ × ℚ × ℚ × ℚ
  cls : String
  score : ℚ

/-- Embedded from `src/src/components/SectionHeading.tsx`
(`ObjectDetection`): the component state touched by a detection pass —
the detection list and the displayed item count. -/
structure DemoState where
  detections : List DemoDetection
  itemCount : Nat

/-- Embedded from `src/src/components/SectionHeading.tsx`, lines 115-117:
a completed `detect()` pass stores the model's raw prediction list via
`setDetections(predictions)` and the displayed count via
`setItemCount(predictions.length)`. -/
def demoDetectPass (_s : DemoState) (predictions : List DemoDetection) :
    DemoState :=
  { detections := predictions, itemCount := predictions.length }

/-- Embedded from `src/unnamed/part_003` (`Warehouse3D`): the four stock
level colors. -/
def STOCK_full : String := "#5F974F"

/-- Embedded from `src/unnamed/part_003` (`Warehouse3D`). -/
def STOCK_medium : String := "#2640CE"

/-- Embedded from `src/unnamed/part_003` (`Warehouse3D`). -/
def STOCK_low : String := "#ABCEE1"

/-- Embedded from `src/unnamed/part_003` (`Warehouse3D`). -/
def STOCK_empty : String := "#F2F6F9"

/-- Embedded from `src/unnamed/part_003`, `Shelf`, lines 30-31:
`stock > 75 ? STOCK.full : stock > 40 ? STOCK.medium : stock > 10 ?
STOCK.low : STOCK.empty`. -/
def stockColor (stock : ℚ) : String :=
  if stock > 75 then STOCK_full
  else if stock > 40 then STOCK_medium
  else if stock > 10 then STOCK_low
  else STOCK_empty

lemma fifoAppend_of_lt (cap : Nat) (q : List α) (x : α) (h : q.length < cap) :
    fifoAppend cap q x = q ++ [x] := by
  simp [fifoAppend]
  omega

lemma fifoAppend_of_full (cap : Nat) (q : List α) (x : α) (h : cap ≤ q.length) :
    fifoAppend cap q x = (q ++ [x]).tail := by
  simp [fifoAppend]
  omega

lemma length_fifoAppend (cap : Nat) (q : List α) (x : α) (h : q.length ≤ cap) :
    (fifoAppend cap q x).length ≤ cap := by
  by_cases hlt : q.length < cap
  · rw [fifoAppend_of_lt cap q x hlt]
    simp; omega
  · rw [fifoAppend_of_full cap q x (by omega)]
    simp; omega

/-- The central ring-buffer lemma: folding `fifoAppend cap` over any input
stream, starting from a buffer within capacity, yields exactly the last
`cap` elements of the concatenated stream. -/
lemma foldl_fifoAppend (cap : Nat) (xs : List α) :
    ∀ q : List α, q.length ≤ cap →
      xs.foldl (fifoAppend cap) q = (q ++ xs).drop (q.length + xs.length - cap) := by
  induction xs with
  | nil =>
      intro q hq
      simp only [List.foldl_nil, List.append_nil, List.length_nil]
      have h0 : q.length + 0 - cap = 0 := by omega
      rw [h0, List.drop_zero]
  | cons x xs ih =>
      intro q hq
      rw [List.foldl_cons]
      by_cases hlt : q.length < cap
      · have hlen : (q ++ [x]).length ≤ cap := by simpa using hlt
        rw [fifoAppend_of_lt cap q x hlt]
        rw [ih (q ++ [x]) hlen]
        have hL : (q ++ [x]) ++ xs = q ++ x :: xs := by simp
        have hi : (q ++ [x]).length + xs.length = q.length + (x :: xs).length := by
          simp only [List.length_append, List.length_cons, List.length_nil]
          omega
        rw [hL, hi]
      · have hfull : q.length = cap := le_antisymm hq (le_of_not_lt hlt)
        rw [fifoAppend_of_full cap q x (le_of_eq hfull.symm)]
        rcases q with _ | ⟨a, q'⟩
        · have hc : cap = 0 := by simpa using hfull.symm
          subst hc
          simp only [List.nil_append, List.tail_cons]
          rw [ih [] (by simp)]
          simp
        · have hfull' : q'.length + 1 = cap := by simpa using hfull
          have hlen : (q' ++ [x]).length ≤ cap := by
            simp only [List.length_append, List.length_cons, List.length_nil]
            omega
          simp only [List.cons_append, List.tail_cons]
          rw [ih (q' ++ [x]) hlen]
          have hL : (q' ++ [x]) ++ xs = q' ++ x :: xs := by simp
          have hi1 : (q' ++ [x]).length + xs.length - cap = xs.length := by
            simp only [List.length_append, List.length_cons, List.length_nil]
            omega
          have hi2 : (a :: q').length + (x :: xs).length - cap = xs.length + 1 := by
            simp only [List.length_cons]
            omega
          rw [hL, hi1, hi2, List.drop_succ_cons]

lemma length_foldl_fifoAppend (cap : Nat) (xs : List α) (q : List α)
    (hq : q.length ≤ cap) :
    (xs.foldl (fifoAppend cap) q).length ≤ cap := by
  rw [foldl_fifoAppend cap xs q hq]
  simp
  omega

lemma insertionSort_eq_of_perm_sorted (w s : List Nat) (hp : w.Perm s)
    (hs : s.Sorted (· ≤ ·)) : w.insertionSort (· ≤ ·) = s :=
  List.eq_of_perm_of_sorted ((List.perm_insertionSort _ w).trans hp)
    (List.sorted_insertionSort _ w) hs

lemma medianOf_odd (w s : List Nat) (hp : w.Perm s) (hs : s.Sorted (· ≤ ·))
    (hodd : w.length % 2 = 1) :
    medianOf w = s.getD (w.length / 2) 0 := by
  rw [medianOf, insertionSort_eq_of_perm_sorted w s hp hs, if_pos hodd]

lemma medianOf_even (w s : List Nat) (hp : w.Perm s) (hs : s.Sorted (· ≤ ·))
    (heven : w.length % 2 = 0) (hne : w ≠ []) :
    (medianOf w : ℤ) =
      roundHalfUp (((s.getD (w.length / 2 - 1) 0 : ℚ) +
        (s.getD (w.length / 2) 0 : ℚ)) / 2) := by
  have hlen : w.length ≠ 0 := by simpa using hne
  rw [medianOf, insertionSort_eq_of_perm_sorted w s hp hs]
  rw [if_neg (by omega), if_neg hlen]
  set a := s.getD (w.length / 2 - 1) 0 with ha
  set b := s.getD (w.length / 2) 0 with hb
  have key : ((a : ℚ) + (b : ℚ)) / 2 + 1 / 2 = ((a + b + 1 : ℕ) : ℚ) / 2 := by
    push_cast
    ring
  rw [roundHalfUp, key]
  have := Rat.floor_natCast_div_natCast (a + b + 1) 2
  simpa using this.symm

lemma count_le_maxCount (w : List Nat) (v : Nat) (hv : v ∈ w) :
    w.count v ≤ maxCount w := by
  have hne : w.map (fun u => w.count u) ≠ [] := by
    simp only [ne_eq, List.map_eq_nil_iff]
    exact List.ne_nil_of_mem hv
  obtain ⟨m, hm⟩ := WithBot.ne_bot_iff_exists.mp
    (List.maximum_ne_bot_of_ne_nil hne)
  have hle : w.count v ≤ m :=
    List.le_maximum_of_mem (List.mem_map_of_mem (fun u => w.count u) hv) hm.symm
  have hmc : maxCount w = m := by
    rw [maxCount, ← hm]
    rfl
  omega

lemma maxCount_attained (w : List Nat) (hne : w ≠ []) :
    ∃ v ∈ w, w.count v = maxCount w := by
  have hmapne : w.map (fun u => w.count u) ≠ [] := by
    simp only [ne_eq, List.map_eq_nil_iff]
    exact hne
  obtain ⟨m, hm⟩ := WithBot.ne_bot_iff_exists.mp
    (List.maximum_ne_bot_of_ne_nil hmapne)
  have hmem : m ∈ w.map (fun u => w.count u) := List.maximum_mem hm.symm
  rw [List.mem_map] at hmem
  obtain ⟨v, hv, hcv⟩ := hmem
  have hmc : maxCount w = m := by
    rw [maxCount, ← hm]
    rfl
  exact ⟨v, hv, by rw [hcv, hmc]⟩

lemma modeOf_spec (w : List Nat) (hne : w ≠ []) :
    modeOf w ∈ w ∧ w.count (modeOf w) = maxCount w := by
  obtain ⟨v, hv, hcv⟩ := maxCount_attained w hne
  have hvf : v ∈ w.filter (fun u => w.count u == maxCount w) := by
    rw [List.mem_filter]
    exact ⟨hv, by simpa using hcv⟩
  obtain ⟨μ, hμ⟩ := WithTop.ne_top_iff_exists.mp
    (List.minimum_ne_top_of_ne_nil (List.ne_nil_of_mem hvf))
  have hmem : μ ∈ w.filter (fun u => w.count u == maxCount w) :=
    List.minimum_mem hμ.symm
  rw [List.mem_filter] at hmem
  have hmode : modeOf w = μ := by
    rw [modeOf, ← hμ]
    rfl
  refine ⟨hmode ▸ hmem.1, ?_⟩
  rw [hmode]
  simpa using hmem.2

lemma modeOf_le_of_count_eq (w : List Nat) (v : Nat) (hv : v ∈ w)
    (hc : w.count v = maxCount w) : modeOf w ≤ v := by
  have hvf : v ∈ w.filter (fun u => w.count u == maxCount w) := by
    rw [List.mem_filter]
    exact ⟨hv, by simpa using hc⟩
  obtain ⟨μ, hμ⟩ := WithTop.ne_top_iff_exists.mp
    (List.minimum_ne_top_of_ne_nil (List.ne_nil_of_mem hvf))
  have hle : μ ≤ v := List.minimum_le_of_mem hvf hμ.symm
  have hmode : modeOf w = μ := by
    rw [modeOf, ← hμ]
    rfl
  omega

lemma sorted_replicate_zero (n : Nat) :
    List.Sorted (· ≤ ·) (List.replicate n (0 : ℕ)) := by
  induction n with
  | zero => simp
  | succ k ih =>
      rw [List.replicate_succ, List.sorted_cons]
      exact ⟨fun b hb => by simp [List.eq_of_mem_replicate hb], ih⟩

lemma getD_replicate_zero (n i : Nat) :
    (List.replicate n (0 : ℕ)).getD i 0 = 0 := by
  rw [List.getD_eq_getElem?_getD, List.getElem?_replicate]
  split <;> rfl

lemma smoothValue_replicate_zero (m : SmoothMethod) (n : Nat) :
    smoothValue m (List.replicate n 0) = 0 := by
  cases m with
  | median =>
      rcases Nat.eq_zero_or_pos n with h | h
      · subst h
        rfl
      · have hs := sorted_replicate_zero n
        have hsort : (List.replicate n (0 : ℕ)).insertionSort (· ≤ ·) =
            List.replicate n 0 :=
          insertionSort_eq_of_perm_sorted _ _ (List.Perm.refl _) hs
        rw [smoothValue, medianOf, hsort]
        by_cases hodd : (List.replicate n (0 : ℕ)).length % 2 = 1
        · rw [if_pos hodd, getD_replicate_zero]
        · rw [if_neg hodd, if_neg (by simp only [List.length_replicate]; omega)]
          rw [getD_replicate_zero, getD_replicate_zero]
  | mean =>
      rcases Nat.eq_zero_or_pos n with h | h
      · subst h
        rfl
      · rw [smoothValue, meanOf,
          if_neg (by simp only [List.length_replicate]; omega)]
        have hsum : (List.replicate n (0 : ℕ)).sum = 0 := by simp
        rw [hsum, List.length_replicate]
        have h2 : 2 * 0 + n = n := by omega
        rw [h2]
        exact Nat.div_eq_of_lt (by omega)
  | mode =>
      rcases Nat.eq_zero_or_pos n with h | h
      · subst h
        rfl
      · have hne : List.replicate n (0 : ℕ) ≠ [] := by
          simp only [ne_eq, List.replicate_eq_nil_iff]
          omega
        have hmem := (modeOf_spec _ hne).1
        exact List.eq_of_mem_replicate hmem

lemma lookup_map_value {κ β γ : Type} [BEq κ] [LawfulBEq κ]
    (l : List (κ × β)) (g : κ → β → γ) (c : κ) :
    (l.map (fun p => (p.1, g p.1 p.2))).lookup c = (l.lookup c).map (g c) := by
  induction l with
  | nil => rfl
  | cons p rest ih =>
      obtain ⟨k, v⟩ := p
      cases h : c == k with
      | true =>
          have hc : c = k := eq_of_beq h
          subst hc
          simp [List.lookup]
      | false =>
          simpa [List.lookup, h] using ih

lemma lookup_append_or {κ β : Type} [BEq κ] (l₁ l₂ : List (κ × β)) (c : κ) :
    (l₁ ++ l₂).lookup c = (l₁.lookup c).or (l₂.lookup c) := by
  induction l₁ with
  | nil => simp [List.lookup]
  | cons p rest ih =>
      obtain ⟨k, v⟩ := p
      cases h : c == k with
      | true => simp [List.lookup, h]
      | false => simpa [List.lookup, h] using ih

lemma lookup_eq_of_mem_of_keys_nodup {κ β : Type} [BEq κ] [LawfulBEq κ]
    (l : List (κ × β)) (hn : (l.map Prod.fst).Nodup) (p : κ × β) (hp : p ∈ l) :
    l.lookup p.1 = some p.2 := by
  induction l with
  | nil => cases hp
  | cons q rest ih =>
      obtain ⟨k, v⟩ := q
      rw [List.map_cons, List.nodup_cons] at hn
      rcases List.mem_cons.mp hp with h | h
      · subst h
        simp [List.lookup]
      · have hne : p.1 ≠ k := by
          intro he
          apply hn.1
          rw [← he]
          exact List.mem_map.mpr ⟨p, h, rfl⟩
        have hb : (p.1 == k) = false := beq_eq_false_iff_ne.mpr hne
        simpa [List.lookup, hb] using ih hn.2 h

lemma rawCount_eq_zero (ds : List Detection) (c : String)
    (h : c ∉ ds.map (fun d => d.class_name)) : rawCount ds c = 0 := by
  rw [rawCount, List.length_eq_zero, List.filter_eq_nil_iff]
  intro d hd
  simp only [beq_iff_eq]
  intro he
  exact h (he ▸ List.mem_map_of_mem (fun d => d.class_name) hd)

lemma update_window (t : InventoryTracker) (ds : List Detection) :
    (update t ds).window = t.window := rfl

lemma update_method (t : InventoryTracker) (ds : List Detection) :
    (update t ds).method = t.method := rfl

lemma update_lookup_tracked (t : InventoryTracker) (ds : List Detection)
    (c : String) (w : List Nat) (hw : t.history.lookup c = some w) :
    (update t ds).history.lookup c =
      some (fifoAppend t.window w (rawCount ds c)) := by
  show ((t.history.map
      (fun p => (p.1, fifoAppend t.window p.2 (rawCount ds p.1)))) ++
      _).lookup c = _
  rw [lookup_append_or,
    lookup_map_value t.history (fun k v => fifoAppend t.window v (rawCount ds k)) c,
    hw]
  rfl

lemma foldl_update_absent (dss : List (List Detection)) :
    ∀ (t : InventoryTracker) (c : String) (w : List Nat),
      t.history.lookup c = some w →
      (∀ ds ∈ dss, c ∉ ds.map (fun d => d.class_name)) →
      (dss.foldl update t).window = t.window ∧
      (dss.foldl update t).method = t.method ∧
      (dss.foldl update t).history.lookup c =
        some ((List.replicate dss.length 0).foldl (fifoAppend t.window) w) := by
  induction dss with
  | nil =>
      intro t c w hw _
      exact ⟨rfl, rfl, by simpa using hw⟩
  | cons ds rest ih =>
      intro t c w hw habs
      have h0 : rawCount ds c = 0 :=
        rawCount_eq_zero ds c (habs ds (List.mem_cons_self ds rest))
      have hstep : (update t ds).history.lookup c =
          some (fifoAppend t.window w 0) := by
        rw [update_lookup_tracked t ds c w hw, h0]
      obtain ⟨h1, h2, h3⟩ := ih (update t ds) c (fifoAppend t.window w 0) hstep
        (fun d hd => habs d (List.mem_cons_of_mem ds hd))
      rw [List.foldl_cons]
      refine ⟨by rw [h1, update_window], by rw [h2, update_method], ?_⟩
      rw [h3, update_window]
      rw [List.length_cons, List.replicate_succ, List.foldl_cons]

lemma update_keys_nodup (t : InventoryTracker) (ds : List Detection)
    (hn : (t.history.map Prod.fst).Nodup) :
    ((update t ds).history.map Prod.fst).Nodup := by
  show ((t.history.map
      (fun p => (p.1, fifoAppend t.window p.2 (rawCount ds p.1))) ++
      ((detectedClasses ds).filter
        (fun c => !((t.history.map Prod.fst).contains c))).map
        (fun c => (c, fifoAppend t.window [] (rawCount ds c)))).map
      Prod.fst).Nodup
  rw [List.map_append, List.map_map, List.map_map]
  have holds : t.history.map
      (Prod.fst ∘ fun p => (p.1, fifoAppend t.window p.2 (rawCount ds p.1))) =
      t.history.map Prod.fst := by
    apply List.map_congr_left
    intro p _
    rfl
  have hnews : ((detectedClasses ds).filter
      (fun c => !((t.history.map Prod.fst).contains c))).map
      (Prod.fst ∘ fun c => (c, fifoAppend t.window [] (rawCount ds c))) =
      (detectedClasses ds).filter
        (fun c => !((t.history.map Prod.fst).contains c)) := by
    rw [show (Prod.fst ∘ fun c => (c, fifoAppend t.window [] (rawCount ds c))) =
      id from rfl, List.map_id]
  rw [holds, hnews, List.nodup_append]
  refine ⟨hn, List.Nodup.filter _ (List.nodup_dedup _), ?_⟩
  intro a ha hb
  have := (List.mem_filter.mp hb).2
  rw [Bool.not_eq_eq_eq_not, Bool.not_true, List.contains_eq_any_beq] at this
  have hany := this
  rw [List.any_eq_false] at hany
  exact absurd (beq_self_eq_true a) (by simpa using hany a ha)

lemma foldl_update_keys_nodup (dss : List (List Detection)) :
    ∀ t : InventoryTracker, (t.history.map Prod.fst).Nodup →
      ((dss.foldl update t).history.map Prod.fst).Nodup := by
  induction dss with
  | nil => intro t hn; simpa using hn
  | cons ds rest ih =>
      intro t hn
      rw [List.foldl_cons]
      exact ih (update t ds) (update_keys_nodup t ds hn)

lemma consume_lookup_ne (srv : ServerState) (i j : Nat) (h : j ≠ i) :
    (consume srv i).lookup j = srv.lookup j := by
  have hmap := lookup_map_value srv (fun k q => if k = i then q.tail else q) j
  rw [consume] at *
  rw [hmap]
  cases srv.lookup j with
  | none => rfl
  | some q => simp [h]

lemma publish_lookup (srv : ServerState) (m : Msg) (j : Nat) :
    (publish srv m).lookup j = (srv.lookup j).map (fun q => enqueueMsg q m) :=
  lookup_map_value srv (fun _ q => enqueueMsg q m) j

/-- C1: for every class name, the per-class HistoryWindow is a
fixed-capacity FIFO ring buffer of integer per-frame raw counts with
capacity W: it holds at most the W most-recently-appended values (first
conjunct), feeding any raw-count stream leaves exactly the last W values
(second conjunct), appending beyond capacity evicts the oldest value
(third conjunct), and `get_inventory()` on a window fed more than W raw
counts reflects only the most recent W values (fourth conjunct). -/
theorem historyWindow_ring_buffer (W : Nat) (xs : List Nat) (m : SmoothMethod)
    (c : String) :
    (xs.foldl (fifoAppend W) []).length ≤ W ∧
    xs.foldl (fifoAppend W) [] = xs.drop (xs.length - W) ∧
    (∀ (q : List Nat) (x : Nat), q.length = W →
      fifoAppend W q x = (q ++ [x]).tail) ∧
    get_inventory ⟨W, m, [(c, xs.foldl (fifoAppend W) [])]⟩ =
      get_inventory ⟨W, m, [(c, xs.drop (xs.length - W))]⟩ := by
  have hfold := foldl_fifoAppend W xs [] (by simp)
  simp only [List.nil_append, List.length_nil, Nat.zero_add] at hfold
  refine ⟨length_foldl_fifoAppend W xs [] (by simp), hfold, ?_, by rw [hfold]⟩
  intro q x hq
  exact fifoAppend_of_full W q x (le_of_eq hq.symm)

theorem historyWindow_ring_buffer_witness :
    fifoAppend 2 [5, 6] 7 = ([5, 6] ++ [7]).tail :=
  (historyWindow_ring_buffer 2 [1, 2, 3] .median "Mango").2.2.1 [5, 6] 7
    (by decide)

/-- C2: the median smoothing method sorts the window; for odd length it
takes the middle value of the sorted window (stated against any sorted
permutation of the window), and for even length it takes the arithmetic
mean of the two central values rounded to the nearest integer with ties
rounding half up; the window `[4,5,5,6,5]` smooths to 5 and the window
`[2,4]` smooths to 3. -/
theorem median_smoothing_spec (w s : List Nat) (hp : w.Perm s)
    (hs : s.Sorted (· ≤ ·)) :
    (w.length % 2 = 1 →
      smoothValue .median w = s.getD (w.length / 2) 0) ∧
    (w.length % 2 = 0 → w ≠ [] →
      (smoothValue .median w : ℤ) =
        roundHalfUp (((s.getD (w.length / 2 - 1) 0 : ℚ) +
          (s.getD (w.length / 2) 0 : ℚ)) / 2)) ∧
    smoothValue .median [4, 5, 5, 6, 5] = 5 ∧
    smoothValue .median [2, 4] = 3 :=
  ⟨fun hodd => medianOf_odd w s hp hs hodd,
   fun he hne => medianOf_even w s hp hs he hne,
   by decide, by decide⟩

theorem median_smoothing_spec_witness :
    smoothValue .median [2, 4] = 3 :=
  (median_smoothing_spec [2, 4] [2, 4] (List.Perm.refl _) (by decide)).2.2.2

/-- C4: the mode smoothing method returns a most frequent value of the
window (no value occurs more often), breaking frequency ties by
preferring the smaller value (any window value as frequent as the mode is
at least the mode), the mode is an element of a nonempty window, and the
window `[1,1,2,2]` smooths to 1. -/
theorem mode_smoothing_spec (w : List Nat) :
    (∀ v ∈ w, w.count v ≤ w.count (modeOf w)) ∧
    (∀ v ∈ w, w.count v = w.count (modeOf w) → modeOf w ≤ v) ∧
    (w ≠ [] → modeOf w ∈ w) ∧
    smoothValue .mode [1, 1, 2, 2] = 1 := by
  refine ⟨?_, ?_, fun hne => (modeOf_spec w hne).1, by decide⟩
  · intro v hv
    have hne : w ≠ [] := List.ne_nil_of_mem hv
    rw [(modeOf_spec w hne).2]
    exact count_le_maxCount w v hv
  · intro v hv hc
    have hne : w ≠ [] := List.ne_nil_of_mem hv
    rw [(modeOf_spec w hne).2] at hc
    exact modeOf_le_of_count_eq w v hv hc

theorem mode_smoothing_spec_witness :
    List.count 2 [1, 1, 2, 2] ≤ List.count (modeOf [1, 1, 2, 2]) [1, 1, 2, 2] :=
  (mode_smoothing_spec [1, 1, 2, 2]).1 2 (by decide)

/-- C5: `get_inventory()` is a pure function of the current window
contents: a call leaves the tracker state unchanged, repeated calls
without an intervening `update()` return identical results, and the
result depends on nothing but the history windows and the configured
method. -/
theorem get_inventory_pure_idempotent (t : InventoryTracker) :
    (get_inventory_call t).2 = t ∧
    (get_inventory_call ((get_inventory_call t).2)).1 =
      (get_inventory_call t).1 ∧
    ∀ t' : InventoryTracker, t.history = t'.history → t.method = t'.method →
      get_inventory t = get_inventory t' := by
  refine ⟨rfl, rfl, ?_⟩
  intro t' hh hm
  rw [get_inventory, get_inventory, hh, hm]

theorem get_inventory_pure_idempotent_witness :
    get_inventory ⟨10, .median, [("Mango", [5])]⟩ =
      get_inventory ⟨3, .median, [("Mango", [5])]⟩ :=
  (get_inventory_pure_idempotent ⟨10, .median, [("Mango", [5])]⟩).2.2
    ⟨3, .median, [("Mango", [5])]⟩ rfl rfl

/-- C8: a transient InferenceError raised by a single `detect()` call is
caught by the Orchestrator and treated as an empty DetectionSet for that
cycle — the cycle produces the same tracker as an empty detection result
and yields an ok (non-crashing) outcome. -/
theorem inference_error_graceful (t : InventoryTracker) :
    orchestratorCycle t .inferenceError = .ok (update t []) ∧
    orchestratorCycle t .inferenceError = orchestratorCycle t (.ok []) ∧
    ∃ t' : InventoryTracker, orchestratorCycle t .inferenceError = .ok t' :=
  ⟨rfl, rfl, ⟨update t [], rfl⟩⟩

/-- C9: in the `ObjectDetection` demo component, a completed detection
pass displays exactly the length of the raw prediction list returned by
the model for that single frame, stores that raw list, and the outcome is
independent of all previous component state — no history window, temporal
smoothing, or per-class aggregation is applied. -/
theorem demo_item_count_is_raw_length (s s' : DemoState)
    (predictions : List DemoDetection) :
    (demoDetectPass s predictions).itemCount = predictions.length ∧
    (demoDetectPass s predictions).detections = predictions ∧
    demoDetectPass s predictions = demoDetectPass s' predictions :=
  ⟨rfl, rfl, rfl⟩

/-- C10: the `Shelf` stock-color classification is a total function of
the stock percentage with exactly one case applying to any input: the
full color exactly when stock > 75, the medium color exactly when
40 < stock ≤ 75, the low color exactly when 10 < stock ≤ 40, and the
empty color exactly when stock ≤ 10. -/
theorem shelf_stock_color_classification (stock : ℚ) :
    (stockColor stock = STOCK_full ↔ 75 < stock) ∧
    (stockColor stock = STOCK_medium ↔ (40 < stock ∧ stock ≤ 75)) ∧
    (stockColor stock = STOCK_low ↔ (10 < stock ∧ stock ≤ 40)) ∧
    (stockColor stock = STOCK_empty ↔ stock ≤ 10) := by
  have hfm : STOCK_full ≠ STOCK_medium := by decide
  have hfl : STOCK_full ≠ STOCK_low := by decide
  have hfe : STOCK_full ≠ STOCK_empty := by decide
  have hml : STOCK_medium ≠ STOCK_low := by decide
  have hme : STOCK_medium ≠ STOCK_empty := by decide
  have hle : STOCK_low ≠ STOCK_empty := by decide
  rw [stockColor]
  split_ifs with h1 h2 h3
  · exact ⟨iff_of_true rfl h1,
      iff_of_false hfm (fun hc => absurd h1 (by linarith [hc.2])),
      iff_of_false hfl (fun hc => absurd h1 (by linarith [hc.2])),
      iff_of_false hfe (fun hc => absurd h1 (by linarith))⟩
  · exact ⟨iff_of_false (fun he => hfm he.symm) h1,
      iff_of_true rfl ⟨h2, by linarith [not_lt.mp h1]⟩,
      iff_of_false hml (fun hc => absurd h2 (by linarith [hc.2])),
      iff_of_false hme (fun hc => absurd h2 (by linarith))⟩
  · exact ⟨iff_of_false (fun he => hfl he.symm) h1,
      iff_of_false (fun he => hml he.symm)
        (fun hc => absurd hc.1 h2),
      iff_of_true rfl ⟨h3, by linarith [not_lt.mp h2]⟩,
      iff_of_false hle (fun hc => absurd h3 (by linarith))⟩
  · exact ⟨iff_of_false (fun he => hfe he.symm) h1,
      iff_of_false (fun he => hme he.symm)
        (fun hc => absurd hc.1 h2),
      iff_of_false (fun he => hle he.symm)
        (fun hc => absurd hc.1 h3),
      iff_of_true rfl (not_lt.mp h3)⟩

theorem shelf_stock_color_classification_witness :
    stockColor 87 = STOCK_full ∧ stockColor 52 = STOCK_medium ∧
    stockColor 24 = STOCK_low ∧ stockColor 5 = STOCK_empty :=
  ⟨(shelf_stock_color_classification 87).1.mpr (by norm_num),
   (shelf_stock_color_classification 52).2.1.mpr (by norm_num),
   (shelf_stock_color_classification 24).2.2.1.mpr (by norm_num),
   (shelf_stock_color_classification 5).2.2.2.mpr (by norm_num)⟩

/-- C3: on every update, a class tracked earlier but absent from the
current DetectionSet has an explicit 0 appended to its window (first
conjunct); after W consecutive absent frames its window is all zeros
(second conjunct), so its smoothed value is 0 and — since only classes
with a positive smoothed value appear — the class is omitted from the
snapshot (third conjunct). -/
theorem zero_padding_decay (t : InventoryTracker) (c : String)
    (ds : List Detection) (dss : List (List Detection)) (w : List Nat)
    (hn : (t.history.map Prod.fst).Nodup)
    (hw : t.history.lookup c = some w)
    (hlen : w.length ≤ t.window)
    (habs : c ∉ ds.map (fun d => d.class_name))
    (habss : ∀ d ∈ dss, c ∉ d.map (fun x => x.class_name))
    (hcnt : dss.length = t.window) :
    (update t ds).history.lookup c = some (fifoAppend t.window w 0) ∧
    (dss.foldl update t).history.lookup c =
      some (List.replicate t.window 0) ∧
    c ∉ (get_inventory (dss.foldl update t)).map Prod.fst := by
  have h0 : rawCount ds c = 0 := rawCount_eq_zero ds c habs
  have hconj1 : (update t ds).history.lookup c =
      some (fifoAppend t.window w 0) := by
    rw [update_lookup_tracked t ds c w hw, h0]
  obtain ⟨hTw, hTm, hTl⟩ := foldl_update_absent dss t c w hw habss
  have hfold : (List.replicate dss.length 0).foldl (fifoAppend t.window) w =
      List.replicate t.window 0 := by
    rw [foldl_fifoAppend t.window (List.replicate dss.length (0 : ℕ)) w hlen]
    rw [List.length_replicate, hcnt]
    have hidx : w.length + t.window - t.window = w.length := by omega
    rw [hidx]
    exact List.drop_left w _
  have hconj2 : (dss.foldl update t).history.lookup c =
      some (List.replicate t.window 0) := by
    rw [hTl, hfold]
  refine ⟨hconj1, hconj2, ?_⟩
  intro hmem
  rw [List.mem_map] at hmem
  obtain ⟨p, hp, hpc⟩ := hmem
  rw [get_inventory, List.mem_filter] at hp
  obtain ⟨hpm, hpos⟩ := hp
  rw [List.mem_map] at hpm
  obtain ⟨q, hq, hfq⟩ := hpm
  have hnod := foldl_update_keys_nodup dss t hn
  have hlq := lookup_eq_of_mem_of_keys_nodup _ hnod q hq
  have hq1 : q.1 = c := by
    have hfst := congrArg Prod.fst hfq
    simpa using hfst.trans hpc
  rw [hq1] at hlq
  have hq2 : q.2 = List.replicate t.window 0 :=
    Option.some.inj (hlq.symm.trans hconj2)
  have hp2 : p.2 = smoothValue (dss.foldl update t).method q.2 := by
    have hsnd := congrArg Prod.snd hfq
    simpa using hsnd.symm
  rw [decide_eq_true_eq, hp2, hq2, smoothValue_replicate_zero] at hpos
  exact absurd hpos (lt_irrefl 0)

theorem zero_padding_decay_witness :
    (([[], []] : List (List Detection)).foldl update
        ⟨2, .median, [("Mango", [3])]⟩).history.lookup "Mango" =
      some (List.replicate 2 0) :=
  (zero_padding_decay ⟨2, .median, [("Mango", [3])]⟩ "Mango" [] [[], []] [3]
    (by decide) (by decide) (by decide) (by decide) (by decide)
    (by decide)).2.1

/-- C6: whenever a camera read fails, `reconnect()` is invoked with
exponential backoff starting at the base delay and doubling each attempt
up to a cap; during reconnection every `read()` returns the last
successfully captured frame marked stale instead of blocking or erroring;
3 consecutive read failures followed by a success trigger exactly 3
backoff-spaced reconnect attempts (delays base, 2·base, 4·base), and the
run never terminates because of read failures (the final state is
healthy); moreover no more than 5 reconnect attempts are ever spent on
one outage. -/
theorem camera_reconnect_backoff (base cap f0 f : Nat) (hc : 4 * base ≤ cap) :
    (camRun base cap ⟨some f0, 0, [], false⟩
        [.bad, .bad, .bad, .good f]).1.attempts =
      [base, 2 * base, 4 * base] ∧
    (camRun base cap ⟨some f0, 0, [], false⟩
        [.bad, .bad, .bad, .good f]).2 =
      [(some f0, true), (some f0, true), (some f0, true), (some f, false)] ∧
    (camRun base cap ⟨some f0, 0, [], false⟩
        [.bad, .bad, .bad, .good f]).1 =
      ⟨some f, 0, [base, 2 * base, 4 * base], false⟩ ∧
    (∀ s : CamState, 5 ≤ s.consecFails →
      (camStep base cap s .bad).1.attempts = s.attempts ∧
      (camStep base cap s .bad).2 = (s.last, true)) := by
  have h1 : reconnectDelay base cap 0 = base := by
    have he : base * 2 ^ 0 = base := by ring
    rw [reconnectDelay, he]
    exact Nat.min_eq_left (by omega)
  have h2 : reconnectDelay base cap 1 = 2 * base := by
    have he : base * 2 ^ 1 = 2 * base := by ring
    rw [reconnectDelay, he]
    exact Nat.min_eq_left (by omega)
  have h3 : reconnectDelay base cap 2 = 4 * base := by
    have he : base * 2 ^ 2 = 4 * base := by ring
    rw [reconnectDelay, he]
    exact Nat.min_eq_left (by omega)
  refine ⟨?_, ?_, ?_, ?_⟩
  · simp [camRun, camStep, h1, h2, h3]
  · simp [camRun, camStep]
  · simp [camRun, camStep, h1, h2, h3]
  · intro s h5
    have hlt : ¬s.consecFails < 5 := by omega
    constructor
    · simp [camStep, hlt]
    · simp [camStep, hlt]

theorem camera_reconnect_backoff_witness :
    (camRun 1 4 ⟨some 7, 0, [], false⟩
        [.bad, .bad, .bad, .good 9]).1.attempts = [1, 2 * 1, 4 * 1] :=
  (camera_reconnect_backoff 1 4 7 9 (by decide)).1

/-- C7: each publish operation is enqueued independently into every
connection's bounded queue of capacity 2: a queue fed any message stream
holds exactly the most recent at-most-2 messages (first and second
conjuncts), enqueueing at capacity drops the oldest queued message
(third conjunct), a publish updates each connection's queue as a function
of that queue alone (fourth conjunct), and a stalled or consuming
connection never affects any other connection's queue (fifth
conjunct). -/
theorem connection_queue_backpressure (ms : List Msg) (srv : ServerState)
    (i j : Nat) (m : Msg) (hij : j ≠ i) :
    ms.foldl enqueueMsg [] = ms.drop (ms.length - 2) ∧
    (ms.foldl enqueueMsg []).length ≤ 2 ∧
    (∀ q : List Msg, q.length = 2 → enqueueMsg q m = (q ++ [m]).tail) ∧
    (publish srv m).lookup j = (srv.lookup j).map (fun q => enqueueMsg q m) ∧
    (consume srv i).lookup j = srv.lookup j := by
  have hfold : ms.foldl enqueueMsg [] = ms.drop (ms.length - 2) := by
    show ms.foldl (fifoAppend 2) [] = ms.drop (ms.length - 2)
    have h := foldl_fifoAppend 2 ms [] (by simp)
    simpa using h
  refine ⟨hfold, by rw [hfold]; simp; omega, ?_,
    publish_lookup srv m j, consume_lookup_ne srv i j hij⟩
  intro q hq
  exact fifoAppend_of_full 2 q m (le_of_eq hq.symm)

theorem connection_queue_backpressure_witness :
    (consume [(1, []), (2, [⟨.frame, "f", 1⟩])] 2).lookup 1 =
      ([(1, []), (2, [⟨.frame, "f", 1⟩])] : ServerState).lookup 1 :=
  (connection_queue_backpressure [] [(1, []), (2, [⟨.frame, "f", 1⟩])] 2 1
    ⟨.stats, "s", 2⟩ (by decide)).2.2.2.2

end PokeBowl
